import Mathlib

/-!
Verification development for the `linya` progress-bar library (`src/lib.rs`).

The coordinator state (`Progress`) and per-row state (`SubBar`) are embedded
directly from the Rust structs.  The buffered `Stderr` sink is modelled by the
list of output events (`Ev`) an operation produces: each `Ev` constructor
corresponds to one `write!`/`writeln!`/`flush` call in the source, carrying the
data the format string would render.  Machine integers (`usize`/`u64`, both
64-bit) are `Nat` with checked arithmetic: division by zero and, as in a
debug build of Rust where arithmetic overflow panics, add/sub/mul overflow
are modelled as faults (`Except Fault`), as is out-of-bounds indexing.
-/

/-- Runtime faults of the Rust code: panics from checked arithmetic
(overflow/underflow of `u64`/`usize` operations, division by zero) and from
out-of-bounds slice indexing. -/
inductive Fault where
  | divByZero
  | subOverflow
  | addOverflow
  | mulOverflow
  | indexOutOfBounds
deriving DecidableEq, Repr

/-- Number of values of a 64-bit machine integer (`usize`/`u64`). -/
def u64Size : Nat := 2 ^ 64

/-- Checked 64-bit addition: faults on overflow (Rust debug semantics). -/
def checkedAdd (a b : Nat) : Except Fault Nat :=
  if a + b < u64Size then .ok (a + b) else .error .addOverflow

/-- Checked subtraction of machine naturals: faults on underflow
(Rust debug semantics). -/
def checkedSub (a b : Nat) : Except Fault Nat :=
  if b ≤ a then .ok (a - b) else .error .subOverflow

/-- Checked 64-bit multiplication: faults on overflow (Rust debug semantics). -/
def checkedMul (a b : Nat) : Except Fault Nat :=
  if a * b < u64Size then .ok (a * b) else .error .mulOverflow

/-- Checked division: faults on a zero divisor (Rust panics on `/ 0`). -/
def checkedDiv (a b : Nat) : Except Fault Nat :=
  if b = 0 then .error .divByZero else .ok (a / b)

/-- One bar's state: the Rust struct `SubBar` (lib.rs:361-373). -/
structure SubBar where
  /-- Progress as of the previous draw in percent. -/
  prev_percent : Nat
  /-- Current progress. -/
  curr : Nat
  /-- The progress target. -/
  total : Nat
  /-- A user-supplied label for the left side of the bar line. -/
  label : String
  /-- Did the user force this bar to stop? -/
  cancelled : Bool
deriving DecidableEq, Repr

/-- The bar coordinator: the Rust struct `Progress` (lib.rs:104-114).  The
`out : BufWriter<Stderr>` field is modelled by the event lists the operations
return; `size` is the terminal geometry snapshot `(width, height)`, `none`
when the process is not attached to a terminal. -/
structure Progress where
  /-- The drawable bars themselves. -/
  bars : List SubBar
  /-- Terminal width and height. -/
  size : Option (Nat × Nat)
deriving DecidableEq, Repr

/-- Output events, one per `write!`/`writeln!`/`flush` call in the source.
Each constructor records the dynamic data of the corresponding format string. -/
inductive Ev where
  /-- lib.rs:222: save cursor, move up `pos` lines, carriage return. -/
  | saveAndUp (pos : Nat)
  /-- lib.rs:225-232: padded label, denominated magnitude and unit, opening
  bracket; `l` is the computed label field width. -/
  | labelData (label : String) (data : Nat) (unit : Char) (l : Nat)
  /-- lib.rs:234: fill with the cancel character and print `??? ` instead of a
  percentage; `f` is the fill width. -/
  | cancelledFill (f : Nat)
  /-- lib.rs:236: completely filled bar and the text `100%`. -/
  | completeFill (f : Nat)
  /-- lib.rs:241-249: filled segment of width `f`, a transition marker, empty
  segment of width `e`, and the numeric percentage `pct`. -/
  | activeFill (f : Nat) (e : Nat) (pct : Nat)
  /-- lib.rs:254: restore the saved cursor position, carriage return. -/
  | restore
  /-- lib.rs:256: a bare line break (forced/linear rendering mode). -/
  | newline
  /-- lib.rs:156-163: initial empty-bar line of a freshly created bar, at 0%. -/
  | initLine (label : String) (l : Nat) (f : Nat)
  /-- lib.rs:314: move up `n` lines and erase the line (log-scope opening). -/
  | moveUpErase (n : Nat)
  /-- A `flush` of the buffered sink. -/
  | flush
deriving DecidableEq, Repr

/-- lib.rs:392-400: reduce a raw byte count into a human-readable form. -/
def denomination (curr : Nat) : Nat × Char :=
  if curr ≥ 1000000000 then (curr / 1000000000, 'G')
  else if curr ≥ 1000000 then (curr / 1000000, 'M')
  else if curr ≥ 1000 then (curr / 1000, 'K')
  else (curr, ' ')

/-- lib.rs:166-172: the freshly created row pushed by `Progress::bar`,
starting at `curr = 0`, `prev_percent = 0` and not cancelled. -/
def newRow (total : Nat) (label : String) : SubBar :=
  { curr := 0, prev_percent := 0, total := total, label := label,
    cancelled := false }

/-- lib.rs:150-175, `Progress::bar`: append a row, emit its initial empty
rendering, flush, and hand back the new row's index. -/
def Progress.bar (p : Progress) (total : Nat) (label : String) :
    Except Fault (Progress × Nat × List Ev) :=
  let twidth := (p.size.map (fun s => s.1)).getD 100
  match checkedSub (twidth / 2) 7 with
  | .error e => .error e
  | .ok w =>
    match checkedSub twidth w with
    | .error e => .error e
    | .ok l1 =>
      match checkedSub l1 8 with
      | .error e => .error e
      | .ok l2 =>
        match checkedSub l2 5 with
        | .error e => .error e
        | .ok l =>
          .ok ({ p with bars := p.bars ++ [newRow total label] }, p.bars.length,
               [Ev.initLine label l w, Ev.flush])

/-- lib.rs:178-180, `Progress::set`: set a bar's progress value, no I/O. -/
def Progress.set (p : Progress) (i : Nat) (value : Nat) : Except Fault Progress :=
  match p.bars[i]? with
  | none => .error .indexOutOfBounds
  | some b => .ok { p with bars := p.bars.set i { b with curr := value } }

/-- lib.rs:269-271, `Progress::inc`: increment a bar's progress, no I/O. -/
def Progress.inc (p : Progress) (i : Nat) (value : Nat) : Except Fault Progress :=
  match p.bars[i]? with
  | none => .error .indexOutOfBounds
  | some b =>
    match checkedAdd b.curr value with
    | .error e => .error e
    | .ok s => Progress.set p i s

/-- lib.rs:233-250: the fill-field portion of one bar line, one of the three
cases of `draw_impl`'s write sequence: the cancelled fill with `??? `, the
complete fill with `100%`, or the active fill with its transition marker and
numeric percentage. -/
def fillEvent (w : Nat) (b : SubBar) : Except Fault Ev :=
  if b.cancelled then .ok (Ev.cancelledFill w)
  else if b.curr ≥ b.total then .ok (Ev.completeFill w)
  else
    match checkedMul w b.curr with
    | .error e => .error e
    | .ok fm =>
      match checkedDiv fm b.total with
      | .error e => .error e
      | .ok fd =>
        match checkedSub w 1 with
        | .error e => .error e
        | .ok wm1 =>
          match checkedMul 100 b.curr with
          | .error e => .error e
          | .ok pm =>
            match checkedDiv pm b.total with
            | .error e => .error e
            | .ok pct => .ok (Ev.activeFill (min fd wm1) (wm1 - min fd wm1) pct)

/-- lib.rs:203-260, `Progress::draw_impl`: conditionally repaint one row.
Mirrors the source line by line: the no-terminal early return, the cursor
offset `pos = bars.len() - i`, the percentage and throttle difference (both in
`u64`), the redraw condition `(pos < term_height && diff >= 1) || force`, the
field widths, the three fill cases, and the save/restore versus trailing
newline framing. -/
def Progress.drawImpl (p : Progress) (i : Nat) (force : Bool) :
    Except Fault (Progress × List Ev) :=
  match p.size with
  | none => .ok (p, [])
  | some (termWidth, termHeight) =>
    match checkedSub p.bars.length i with
    | .error e => .error e
    | .ok pos =>
      match p.bars[i]? with
      | none => .error .indexOutOfBounds
      | some b =>
        match checkedMul 100 b.curr with
        | .error e => .error e
        | .ok m =>
          match checkedDiv m b.total with
          | .error e => .error e
          | .ok cur_percent =>
            match checkedSub cur_percent b.prev_percent with
            | .error e => .error e
            | .ok diff =>
              if (pos < termHeight ∧ 1 ≤ diff) ∨ force = true then
                match checkedSub (termWidth / 2) 7 with
                | .error e => .error e
                | .ok w =>
                  match checkedSub termWidth w with
                  | .error e => .error e
                  | .ok l1 =>
                    match checkedSub l1 8 with
                    | .error e => .error e
                    | .ok l2 =>
                      match checkedSub l2 5 with
                      | .error e => .error e
                      | .ok l =>
                        match fillEvent w b with
                        | .error e => .error e
                        | .ok fe =>
                          .ok ({ p with bars :=
                                   p.bars.set i { b with prev_percent := cur_percent } },
                               (if force then [] else [Ev.saveAndUp pos]) ++
                                 [Ev.labelData b.label (denomination b.curr).1
                                    (denomination b.curr).2 l, fe] ++
                                 (if force then [Ev.newline] else [Ev.restore]))
              else
                .ok (p, [])

/-- lib.rs:190-195, `Progress::draw`: a non-forced `draw_impl` followed by a
flush of the sink. -/
def Progress.draw (p : Progress) (i : Nat) : Except Fault (Progress × List Ev) :=
  match Progress.drawImpl p i false with
  | .error e => .error e
  | .ok (p', evs) => .ok (p', evs ++ [Ev.flush])

/-- lib.rs:263-266, `Progress::set_and_draw`. -/
def Progress.set_and_draw (p : Progress) (i : Nat) (value : Nat) :
    Except Fault (Progress × List Ev) :=
  match Progress.set p i value with
  | .error e => .error e
  | .ok p1 => Progress.draw p1 i

/-- lib.rs:274-277, `Progress::inc_and_draw`. -/
def Progress.inc_and_draw (p : Progress) (i : Nat) (value : Nat) :
    Except Fault (Progress × List Ev) :=
  match Progress.inc p i value with
  | .error e => .error e
  | .ok p1 => Progress.draw p1 i

/-- lib.rs:280-283, `Progress::is_done`: has the bar completed?  No output,
no state change. -/
def Progress.is_done (p : Progress) (i : Nat) : Except Fault Bool :=
  match p.bars[i]? with
  | none => .error .indexOutOfBounds
  | some b => .ok (decide (b.curr ≥ b.total))

/-- lib.rs:289-297, `Progress::cancel`: mark the row cancelled, reset
`prev_percent` to 0 to force the next redraw, then `set_and_draw` to the
row's target. -/
def Progress.cancel (p : Progress) (i : Nat) : Except Fault (Progress × List Ev) :=
  match p.bars[i]? with
  | none => .error .indexOutOfBounds
  | some b =>
    let p1 : Progress :=
      { p with bars := p.bars.set i { b with cancelled := true, prev_percent := 0 } }
    match p1.bars[i]? with
    | none => .error .indexOutOfBounds
    | some b1 => Progress.set_and_draw p1 i b1.total

/-- lib.rs:312-316, `Progress::stderr`: opening the log scope moves the cursor
up to the first bar line and erases it.  Only the emitted events matter here;
the returned handle is the coordinator itself. -/
def Progress.stderrOpen (p : Progress) : List Ev :=
  [Ev.moveUpErase p.bars.length]

/-- Forced redraw of each row index in the given list in order, threading the
coordinator state and concatenating the emitted events (the loop body of
`Drop for WriteHandle`, lib.rs:351-353). -/
def drawAll (p : Progress) (idxs : List Nat) : Except Fault (Progress × List Ev) :=
  match idxs with
  | [] => .ok (p, [])
  | i :: rest =>
    match Progress.drawImpl p i true with
    | .error e => .error e
    | .ok (p1, evs1) =>
      match drawAll p1 rest with
      | .error e => .error e
      | .ok (p2, evs2) => .ok (p2, evs1 ++ evs2)

/-- lib.rs:335-358, `impl Drop for WriteHandle`: on release, compute the first
bar index that still fits on screen, force-redraw every row from there to the
bottom, then flush once. -/
def writeHandleDrop (p : Progress) : Except Fault (Progress × List Ev) :=
  let startE : Except Fault Nat :=
    match p.size with
    | some (_, h) =>
      if p.bars.length ≥ h then
        match checkedSub h 1 with
        | .error e => .error e
        | .ok hm => checkedSub p.bars.length hm
      else .ok 0
    | none => .ok 0
  match startE with
  | .error e => .error e
  | .ok start =>
    match drawAll p (List.range' start (p.bars.length - start)) with
    | .error e => .error e
    | .ok (p', evs) => .ok (p', evs ++ [Ev.flush])

/-- Opening a log scope via `Progress::stderr` and dropping the returned
`WriteHandle` immediately, with no writes in between: the line-erase of the
opening followed by the batch repaint of the drop. -/
def logScopeOpenClose (p : Progress) : Except Fault (Progress × List Ev) :=
  match writeHandleDrop p with
  | .error e => .error e
  | .ok (p', evs) => .ok (p', Progress.stderrOpen p ++ evs)

/-! ### Inversion lemmas for the checked machine arithmetic -/

theorem checkedAdd_ok {a b c : Nat} (h : checkedAdd a b = .ok c) :
    a + b < u64Size ∧ c = a + b := by
  unfold checkedAdd at h
  split at h
  · exact ⟨by assumption, (Except.ok.inj h).symm⟩
  · simp at h

theorem checkedSub_ok {a b c : Nat} (h : checkedSub a b = .ok c) :
    b ≤ a ∧ c = a - b := by
  unfold checkedSub at h
  split at h
  · exact ⟨by assumption, (Except.ok.inj h).symm⟩
  · simp at h

theorem checkedMul_ok {a b c : Nat} (h : checkedMul a b = .ok c) :
    a * b < u64Size ∧ c = a * b := by
  unfold checkedMul at h
  split at h
  · exact ⟨by assumption, (Except.ok.inj h).symm⟩
  · simp at h

theorem checkedDiv_ok {a b c : Nat} (h : checkedDiv a b = .ok c) :
    b ≠ 0 ∧ c = a / b := by
  unfold checkedDiv at h
  split at h
  · simp at h
  · exact ⟨by assumption, (Except.ok.inj h).symm⟩

theorem checkedSub_ok_of {a b : Nat} (h : b ≤ a) : checkedSub a b = .ok (a - b) := by
  unfold checkedSub
  exact if_pos h

theorem checkedMul_ok_of {a b : Nat} (h : a * b < u64Size) :
    checkedMul a b = .ok (a * b) := by
  unfold checkedMul
  exact if_pos h

theorem checkedDiv_ok_of {a b : Nat} (h : b ≠ 0) : checkedDiv a b = .ok (a / b) := by
  unfold checkedDiv
  exact if_neg h

theorem fillEvent_ok {w : Nat} {b : SubBar} {fe : Ev} (h : fillEvent w b = .ok fe) :
    (b.cancelled = true ∧ fe = Ev.cancelledFill w) ∨
    (b.cancelled = false ∧ b.total ≤ b.curr ∧ fe = Ev.completeFill w) ∨
    (b.cancelled = false ∧ b.curr < b.total ∧ 1 ≤ w ∧ b.total ≠ 0 ∧
      fe = Ev.activeFill (min (w * b.curr / b.total) (w - 1))
        ((w - 1) - min (w * b.curr / b.total) (w - 1)) (100 * b.curr / b.total)) := by
  unfold fillEvent at h
  split at h
  · left
    exact ⟨by assumption, (Except.ok.inj h).symm⟩
  · rename_i hc
    split at h
    · right; left
      exact ⟨Bool.not_eq_true _ |>.mp hc, by assumption, (Except.ok.inj h).symm⟩
    · rename_i hlt
      right; right
      refine ⟨Bool.not_eq_true _ |>.mp hc, by omega, ?_⟩
      split at h
      · simp at h
      · rename_i fm hfm
        obtain ⟨_, rfl⟩ := checkedMul_ok hfm
        split at h
        · simp at h
        · rename_i fd hfd
          obtain ⟨ht0, rfl⟩ := checkedDiv_ok hfd
          split at h
          · simp at h
          · rename_i wm1 hwm1
            obtain ⟨hw1, rfl⟩ := checkedSub_ok hwm1
            split at h
            · simp at h
            · rename_i pm hpm
              obtain ⟨_, rfl⟩ := checkedMul_ok hpm
              split at h
              · simp at h
              · rename_i pct hpct
                obtain ⟨_, rfl⟩ := checkedDiv_ok hpct
                exact ⟨hw1, ht0, (Except.ok.inj h).symm⟩

/-- Structural inversion of a successful `draw_impl`: either nothing was
repainted and the state is untouched (no terminal, or the throttle suppressed
a non-forced draw), or exactly one row line was written, with the save/move-up
prefix and restore suffix in the non-forced mode and a trailing newline in the
forced mode, updating that row's `prev_percent` to the freshly computed
percentage. -/
theorem drawImpl_cases {p : Progress} {i : Nat} {force : Bool} {p' : Progress}
    {evs : List Ev} (h : Progress.drawImpl p i force = .ok (p', evs)) :
    (p' = p ∧ evs = [] ∧ (force = true → p.size = none) ∧
      (∀ tw th, p.size = some (tw, th) → ∀ b, p.bars[i]? = some b →
        ¬((p.bars.length - i < th ∧
            1 ≤ 100 * b.curr / b.total - b.prev_percent) ∨ force = true))) ∨
    (∃ tw th b fe,
      p.size = some (tw, th) ∧ p.bars[i]? = some b ∧
      b.total ≠ 0 ∧ 100 * b.curr < u64Size ∧
      b.prev_percent ≤ 100 * b.curr / b.total ∧
      ((p.bars.length - i < th ∧
         1 ≤ 100 * b.curr / b.total - b.prev_percent) ∨ force = true) ∧
      p' = { p with bars :=
               p.bars.set i { b with prev_percent := 100 * b.curr / b.total } } ∧
      evs = (if force then [] else [Ev.saveAndUp (p.bars.length - i)]) ++
        [Ev.labelData b.label (denomination b.curr).1 (denomination b.curr).2
           (tw - (tw / 2 - 7) - 8 - 5), fe] ++
        (if force then [Ev.newline] else [Ev.restore]) ∧
      fillEvent (tw / 2 - 7) b = .ok fe) := by
  unfold Progress.drawImpl at h
  split at h
  · rename_i hsz
    left
    obtain ⟨h1, h2⟩ := Prod.mk.inj (Except.ok.inj h)
    exact ⟨h1.symm, h2.symm, fun _ => hsz, fun tw th hs => by rw [hsz] at hs; cases hs⟩
  · rename_i tw th hsz
    split at h
    · simp at h
    · rename_i pos hpos
      obtain ⟨hile, rfl⟩ := checkedSub_ok hpos
      split at h
      · simp at h
      · rename_i b hb
        split at h
        · simp at h
        · rename_i m hm
          obtain ⟨hmul, rfl⟩ := checkedMul_ok hm
          split at h
          · simp at h
          · rename_i cur hcur
            obtain ⟨ht0, rfl⟩ := checkedDiv_ok hcur
            split at h
            · simp at h
            · rename_i diff hdiff
              obtain ⟨hprevle, rfl⟩ := checkedSub_ok hdiff
              split at h
              · rename_i hcond
                split at h
                · simp at h
                · rename_i w hw
                  obtain ⟨hw7, rfl⟩ := checkedSub_ok hw
                  split at h
                  · simp at h
                  · rename_i l1 hl1
                    obtain ⟨_, rfl⟩ := checkedSub_ok hl1
                    split at h
                    · simp at h
                    · rename_i l2 hl2
                      obtain ⟨_, rfl⟩ := checkedSub_ok hl2
                      split at h
                      · simp at h
                      · rename_i l hl
                        obtain ⟨_, rfl⟩ := checkedSub_ok hl
                        split at h
                        · simp at h
                        · rename_i fe hfe
                          obtain ⟨h1, h2⟩ := Prod.mk.inj (Except.ok.inj h)
                          right
                          exact ⟨tw, th, b, fe, hsz, hb, ht0, hmul, hprevle,
                            hcond, h1.symm, h2.symm, hfe⟩
              · rename_i hcond
                left
                obtain ⟨h1, h2⟩ := Prod.mk.inj (Except.ok.inj h)
                refine ⟨h1.symm, h2.symm, ?_, ?_⟩
                · intro hf
                  exact absurd (Or.inr hf) hcond
                · intro tw' th' hs b' hb'
                  rw [hsz] at hs
                  obtain ⟨rfl, rfl⟩ := Prod.mk.inj (Option.some.inj hs)
                  rw [hb] at hb'
                  obtain rfl := Option.some.inj hb'
                  exact hcond

/-- Forward computation: with known geometry, a valid row, fault-free
percentage arithmetic and the throttle condition false, a non-forced
`draw_impl` leaves the coordinator untouched and writes nothing. -/
theorem drawImpl_noRepaint {p : Progress} {i tw th : Nat} {b : SubBar}
    (hsz : p.size = some (tw, th)) (hb : p.bars[i]? = some b)
    (ht0 : b.total ≠ 0) (hmul : 100 * b.curr < u64Size)
    (hple : b.prev_percent ≤ 100 * b.curr / b.total)
    (hcond : ¬(p.bars.length - i < th ∧
               1 ≤ 100 * b.curr / b.total - b.prev_percent)) :
    Progress.drawImpl p i false = .ok (p, []) := by
  have hi : i < p.bars.length := (List.getElem?_eq_some.1 hb).1
  unfold Progress.drawImpl
  rw [hsz]
  rw [checkedSub_ok_of (Nat.le_of_lt hi)]
  simp only [hb, checkedMul_ok_of hmul, checkedDiv_ok_of ht0, checkedSub_ok_of hple]
  rw [if_neg]
  simp only [Bool.false_eq_true, or_false]
  exact hcond
theorem drawImpl_shape {p : Progress} {i : Nat} {force : Bool} {p' : Progress}
    {evs : List Ev} (h : Progress.drawImpl p i force = .ok (p', evs)) :
    p'.size = p.size ∧ p'.bars.length = p.bars.length ∧
    ∀ (j : Nat) (bj : SubBar), p.bars[j]? = some bj →
      ∃ bj', p'.bars[j]? = some bj' ∧
        bj'.curr = bj.curr ∧ bj'.total = bj.total ∧ bj'.label = bj.label ∧
        bj'.cancelled = bj.cancelled := by
  rcases drawImpl_cases h with ⟨rfl, -, -, -⟩ |
    ⟨tw, th, b, fe, hsz, hb, -, -, -, -, rfl, -, -⟩
  · exact ⟨rfl, rfl, fun j bj hj => ⟨bj, hj, rfl, rfl, rfl, rfl⟩⟩
  · refine ⟨rfl, by simp, ?_⟩
    intro j bj hj
    by_cases hij : i = j
    · subst hij
      rw [hb] at hj
      obtain rfl := Option.some.inj hj
      exact ⟨_, List.getElem?_set_eq_of_lt _ (List.getElem?_eq_some.1 hb).1,
        rfl, rfl, rfl, rfl⟩
    · exact ⟨bj, by simpa [List.getElem?_set_ne hij] using hj, rfl, rfl, rfl, rfl⟩

/-- If a successful `draw_impl` wrote no bar line, nothing happened at all. -/
theorem drawImpl_noLabel {p : Progress} {i : Nat} {force : Bool} {p' : Progress}
    {evs : List Ev} (h : Progress.drawImpl p i force = .ok (p', evs))
    (hnl : ∀ (lab : String) (d : Nat) (u : Char) (l : Nat),
      Ev.labelData lab d u l ∈ evs → False) :
    p' = p ∧ evs = [] := by
  rcases drawImpl_cases h with ⟨rfl, rfl, -, -⟩ |
    ⟨tw, th, b, fe, -, -, -, -, -, -, -, rfl, -⟩
  · exact ⟨rfl, rfl⟩
  · exact absurd (by simp) (hnl b.label (denomination b.curr).1
      (denomination b.curr).2 (tw - (tw / 2 - 7) - 8 - 5))

/-- Every numeric percentage a `draw_impl` actually prints is below 100: the
complete and cancelled cases print the literals `100%` and `??? ` instead. -/
theorem drawImpl_pct {p : Progress} {i : Nat} {force : Bool} {p' : Progress}
    {evs : List Ev} (h : Progress.drawImpl p i force = .ok (p', evs)) :
    ∀ (f e pct : Nat), Ev.activeFill f e pct ∈ evs → pct < 100 := by
  intro f e pct hmem
  rcases drawImpl_cases h with ⟨-, rfl, -, -⟩ |
    ⟨tw, th, b, fe, -, -, ht0, -, -, -, -, hevs, hfe⟩
  · cases hmem
  · subst hevs
    rcases fillEvent_ok hfe with ⟨-, rfl⟩ | ⟨-, -, rfl⟩ | ⟨-, hlt, -, -, rfl⟩ <;>
      by_cases hf : force = true <;> simp [hf] at hmem
    · obtain ⟨-, -, rfl⟩ := hmem
      exact (Nat.div_lt_iff_lt_mul (Nat.pos_of_ne_zero ht0)).2 (by omega)
    · obtain ⟨-, -, rfl⟩ := hmem
      exact (Nat.div_lt_iff_lt_mul (Nat.pos_of_ne_zero ht0)).2 (by omega)

/-- A `draw` over a `draw_impl` that did nothing only flushes. -/
theorem draw_of_noRepaint {p : Progress} {i : Nat}
    (h : Progress.drawImpl p i false = .ok (p, [])) :
    Progress.draw p i = .ok (p, [Ev.flush]) := by
  unfold Progress.draw
  rw [h]
  rfl

/-- C1: for every coordinator with known terminal geometry and every valid bar
handle, `draw` repaints the row if and only if the row's offset from the
bottom of the stack (`row_count - index`) is less than the terminal height and
`floor(100 * current / target) - last_percent ≥ 1`; on repaint `last_percent`
is set to the new percentage, so calling `draw` twice on the same row with no
intervening mutation produces no output on the second call. -/
theorem draw_throttle_iff (p : Progress) (i tw th : Nat) (b : SubBar)
    (p' : Progress) (evs : List Ev)
    (hsz : p.size = some (tw, th)) (hb : p.bars[i]? = some b)
    (hdraw : Progress.draw p i = .ok (p', evs)) :
    (evs ≠ [Ev.flush] ↔
      (p.bars.length - i < th ∧ 1 ≤ 100 * b.curr / b.total - b.prev_percent))
    ∧ (evs ≠ [Ev.flush] →
        p'.bars[i]? = some { b with prev_percent := 100 * b.curr / b.total })
    ∧ (evs = [Ev.flush] → p' = p)
    ∧ Progress.draw p' i = .ok (p', [Ev.flush]) := by
  unfold Progress.draw at hdraw
  split at hdraw
  · simp at hdraw
  · rename_i p0 evs0 heq
    obtain ⟨rfl, rfl⟩ := Prod.mk.inj (Except.ok.inj hdraw)
    rcases drawImpl_cases heq with ⟨rfl, rfl, -, hneg⟩ |
      ⟨tw2, th2, b2, fe, hsz2, hb2, ht0, hmul, hple, hcond, hp', hevs0, hfe⟩
    · have hcond := hneg tw th hsz b hb
      simp only [Bool.false_eq_true, or_false] at hcond
      refine ⟨by simp [hcond], by simp, fun _ => rfl, ?_⟩
      unfold Progress.draw
      rw [heq]
      rfl
    · rw [hsz] at hsz2
      obtain ⟨rfl, rfl⟩ := Prod.mk.inj (Option.some.inj hsz2)
      rw [hb] at hb2
      obtain rfl := Option.some.inj hb2
      simp only [if_neg (by simp : ¬(false = true))] at hevs0
      subst hevs0
      subst hp'
      have hi : i < p.bars.length := (List.getElem?_eq_some.1 hb).1
      have hget : (p.bars.set i
          { b with prev_percent := 100 * b.curr / b.total })[i]? =
          some { b with prev_percent := 100 * b.curr / b.total } :=
        List.getElem?_set_eq_of_lt _ hi
      have hcond' : p.bars.length - i < th ∧
          1 ≤ 100 * b.curr / b.total - b.prev_percent := by
        rcases hcond with hc | hc
        · exact hc
        · simp at hc
      refine ⟨by simp [hcond'], fun _ => hget, by simp, ?_⟩
      exact draw_of_noRepaint
        (drawImpl_noRepaint hsz hget ht0 hmul (le_refl _) (by simp))

/-- A concrete one-row coordinator attached to an 80x24 terminal. -/
def pW1 : Progress :=
  { bars := [{ prev_percent := 0, curr := 30, total := 50, label := "x",
               cancelled := false }], size := some (80, 24) }

/-- `pW1` after one successful repaint recorded 60% as the last-drawn value. -/
def pW1' : Progress :=
  { bars := [{ prev_percent := 60, curr := 30, total := 50, label := "x",
               cancelled := false }], size := some (80, 24) }

/-- Witness for C1 at a concrete coordinator: after one successful repaint,
an immediate second `draw` of the same row only flushes. -/
theorem draw_throttle_iff_witness :
    Progress.draw pW1' 0 = .ok (pW1', [Ev.flush]) :=
  (draw_throttle_iff pW1 0 80 24
    { prev_percent := 0, curr := 30, total := 50, label := "x",
      cancelled := false }
    pW1' [Ev.saveAndUp 1, Ev.labelData "x" 30 ' ' 34, Ev.activeFill 19 13 60,
      Ev.restore, Ev.flush] rfl rfl rfl).2.2.2


/-- A draw on a row whose target is zero and whose current value is zero
faults with a division by zero as soon as the geometry is known. -/
theorem draw_zero_total_fault {p : Progress} {i tw th : Nat} {b : SubBar}
    (hsz : p.size = some (tw, th)) (hb : p.bars[i]? = some b)
    (ht0 : b.total = 0) (hc0 : b.curr = 0) :
    Progress.draw p i = .error Fault.divByZero := by
  have hi : i < p.bars.length := (List.getElem?_eq_some.1 hb).1
  unfold Progress.draw Progress.drawImpl
  rw [hsz, checkedSub_ok_of (Nat.le_of_lt hi)]
  simp only [hb, hc0, ht0]
  rfl

/-- C4: creating a bar with target 0 does not fail at creation: the row is
appended (with `current = 0`) and the initial 0% line is emitted and flushed;
but the first `draw` attempted for that row faults with a division by zero. -/
theorem zero_target_bar_then_fault (p : Progress) (tw th : Nat) (lbl : String)
    (hsz : p.size = some (tw, th)) (htw : 14 ≤ tw) :
    Progress.bar p 0 lbl = .ok
      ({ p with bars := p.bars ++ [newRow 0 lbl] }, p.bars.length,
       [Ev.initLine lbl (tw - (tw / 2 - 7) - 8 - 5) (tw / 2 - 7), Ev.flush])
    ∧ ({ p with bars := p.bars ++ [newRow 0 lbl] } : Progress).bars.length =
        p.bars.length + 1
    ∧ Progress.draw { p with bars := p.bars ++ [newRow 0 lbl] } p.bars.length =
        .error Fault.divByZero := by
  have h7 : 7 ≤ tw / 2 := by omega
  have hl1 : tw / 2 - 7 ≤ tw := by omega
  have hl8 : 8 ≤ tw - (tw / 2 - 7) := by omega
  have hl5 : 5 ≤ tw - (tw / 2 - 7) - 8 := by omega
  refine ⟨?_, by simp, ?_⟩
  · unfold Progress.bar
    rw [hsz]
    simp only [Option.map_some', Option.getD_some, checkedSub_ok_of h7,
      checkedSub_ok_of hl1, checkedSub_ok_of hl8, checkedSub_ok_of hl5]
  · have hbnew : ({ p with bars := p.bars ++ [newRow 0 lbl] } :
        Progress).bars[p.bars.length]? = some (newRow 0 lbl) := by
      show (p.bars ++ [newRow 0 lbl])[p.bars.length]? = some (newRow 0 lbl)
      rw [List.getElem?_append_right (le_refl _)]
      simp
    exact draw_zero_total_fault hsz hbnew rfl rfl

/-- C5: with terminal geometry unknown, `new_bar` still emits the initial 0%
line (using the fallback width of 100 columns), and every subsequent `draw`
call, on any handle whatsoever, is a safe no-op: it never faults (also not on
a zero target or an out-of-range handle), emits nothing but the flush of an
untouched buffer, and leaves the coordinator state unchanged. -/
theorem no_terminal_draw_noop (p : Progress) (hsz : p.size = none) :
    (∀ (t : Nat) (lbl : String), Progress.bar p t lbl = .ok
        ({ p with bars := p.bars ++ [newRow t lbl] },
         p.bars.length, [Ev.initLine lbl 44 43, Ev.flush]))
    ∧ ∀ i, Progress.draw p i = .ok (p, [Ev.flush]) := by
  constructor
  · intro t lbl
    unfold Progress.bar
    rw [hsz]
    rfl
  · intro i
    unfold Progress.draw Progress.drawImpl
    rw [hsz]
    rfl

/-- C6: with known geometry, if a row's value is lowered via `set` so that
`floor(100 * current / target)` is strictly below `last_percent`, a
subsequent `draw` does not merely skip the repaint: the unsigned subtraction
`percent - last_percent` underflows, an arithmetic fault. -/
theorem lowered_percent_draw_fault (p : Progress) (i v tw th : Nat) (b : SubBar)
    (hsz : p.size = some (tw, th)) (hb : p.bars[i]? = some b)
    (ht0 : b.total ≠ 0) (hmul : 100 * v < u64Size)
    (hlow : 100 * v / b.total < b.prev_percent) :
    Progress.set p i v = .ok { p with bars := p.bars.set i { b with curr := v } }
    ∧ Progress.draw { p with bars := p.bars.set i { b with curr := v } } i =
        .error Fault.subOverflow := by
  have hi : i < p.bars.length := (List.getElem?_eq_some.1 hb).1
  constructor
  · unfold Progress.set
    rw [hb]
  · have hget : (p.bars.set i { b with curr := v })[i]? =
        some { b with curr := v } := List.getElem?_set_eq_of_lt _ hi
    unfold Progress.draw Progress.drawImpl
    simp only [hsz, List.length_set, checkedSub_ok_of (Nat.le_of_lt hi), hget,
      checkedMul_ok_of hmul, checkedDiv_ok_of ht0]
    unfold checkedSub
    rw [if_neg (by omega)]

/-- C7: with `N` rows, a repainting `draw` of row index 0 moves the cursor up
by exactly `N` lines (topmost), a repainting `draw` of row index `N - 1` by
exactly 1 line (bottommost); in general the cursor-up offset of the emitted
escape sequence is `row_count - index`. -/
theorem draw_cursor_offset (p : Progress) (i tw th : Nat) (p' : Progress)
    (evs : List Ev) (_hsz : p.size = some (tw, th))
    (hdraw : Progress.draw p i = .ok (p', evs)) (hne : evs ≠ [Ev.flush]) :
    evs.head? = some (Ev.saveAndUp (p.bars.length - i))
    ∧ (i = 0 → evs.head? = some (Ev.saveAndUp p.bars.length))
    ∧ (i + 1 = p.bars.length → evs.head? = some (Ev.saveAndUp 1)) := by
  unfold Progress.draw at hdraw
  split at hdraw
  · simp at hdraw
  · rename_i p0 evs0 heq
    obtain ⟨rfl, rfl⟩ := Prod.mk.inj (Except.ok.inj hdraw)
    rcases drawImpl_cases heq with ⟨-, rfl, -, -⟩ |
      ⟨tw2, th2, b, fe, -, -, -, -, -, -, -, hevs0, -⟩
    · simp at hne
    · subst hevs0
      simp only [if_neg (by simp : ¬(false = true))]
      refine ⟨by simp, fun h0 => by simp [h0], fun hlen => ?_⟩
      have hoff : p.bars.length - i = 1 := by omega
      simp [hoff]

/-- Witness for C4: on an empty coordinator attached to an 80x24 terminal,
creating a zero-target bar succeeds but the first draw of it faults. -/
theorem zero_target_bar_then_fault_witness :
    Progress.draw { bars := [newRow 0 "z"], size := some (80, 24) } 0 =
      .error Fault.divByZero :=
  (zero_target_bar_then_fault { bars := [], size := some (80, 24) } 80 24 "z"
    rfl (by omega)).2.2

/-- Witness for C5: detached from a terminal, a draw with an arbitrary,
even out-of-range, handle is a harmless flush-only no-op. -/
theorem no_terminal_draw_noop_witness :
    Progress.draw { bars := [], size := none } 5 =
      .ok ({ bars := [], size := none }, [Ev.flush]) :=
  (no_terminal_draw_noop { bars := [], size := none } rfl).2 5

/-- Witness for C6: lowering the only row of `pW1'` from 30/50 (last drawn at
60%) to 10/50 makes the following draw fault with an underflow. -/
theorem lowered_percent_draw_fault_witness :
    Progress.draw
      { bars := [{ prev_percent := 60, curr := 10, total := 50, label := "x",
                   cancelled := false }],
        size := some (80, 24) } 0 = .error Fault.subOverflow :=
  (lowered_percent_draw_fault pW1' 0 10 80 24
    { prev_percent := 60, curr := 30, total := 50, label := "x",
      cancelled := false }
    rfl rfl (by decide) (by decide) (by decide)).2

/-- Witness for C7: on the one-row coordinator `pW1`, the repainting draw
moves the cursor up by one line. -/
theorem draw_cursor_offset_witness :
    ([Ev.saveAndUp 1, Ev.labelData "x" 30 ' ' 34, Ev.activeFill 19 13 60,
      Ev.restore, Ev.flush] : List Ev).head? = some (Ev.saveAndUp 1) :=
  (draw_cursor_offset pW1 0 80 24 pW1'
    [Ev.saveAndUp 1, Ev.labelData "x" 30 ' ' 34, Ev.activeFill 19 13 60,
      Ev.restore, Ev.flush] rfl rfl (by simp)).1

/-- C8: `is_complete` (the source's `is_done`) holds exactly when
`current ≥ target`, it returns that comparison without touching state or
output, and `increment` is the same operation as `set current+delta`. -/
theorem is_done_iff_and_inc_equiv (p : Progress) (i d : Nat) (b : SubBar)
    (hb : p.bars[i]? = some b) :
    (Progress.is_done p i = .ok true ↔ b.total ≤ b.curr)
    ∧ Progress.is_done p i = .ok (decide (b.total ≤ b.curr))
    ∧ (b.curr + d < u64Size →
        Progress.inc p i d = Progress.set p i (b.curr + d)) := by
  have h2 : Progress.is_done p i = .ok (decide (b.total ≤ b.curr)) := by
    unfold Progress.is_done
    rw [hb]
  refine ⟨?_, h2, ?_⟩
  · rw [h2]
    constructor
    · intro h
      exact of_decide_eq_true (Except.ok.inj h)
    · intro h
      rw [decide_eq_true h]
  · intro hadd
    unfold Progress.inc checkedAdd
    simp only [hb, if_pos hadd]

/-- Witness for C8 on the concrete coordinator `pW1`: incrementing its row by
25 is the same as setting the row to 55. -/
theorem is_done_iff_and_inc_equiv_witness :
    Progress.inc pW1 0 25 = Progress.set pW1 0 55 :=
  (is_done_iff_and_inc_equiv pW1 0 25
    { prev_percent := 0, curr := 30, total := 50, label := "x",
      cancelled := false } rfl).2.2 (by decide)

/-- Scale of each denomination unit: a blank is unscaled, `K` counts
thousands, `M` millions, `G` billions. -/
def unitScale (u : Char) : Nat :=
  if u = 'G' then 1000000000
  else if u = 'M' then 1000000
  else if u = 'K' then 1000
  else 1

/-- C9: the denomination formatter is pure; for every magnitude it picks the
largest unit among blank/K/M/G whose scale keeps the displayed value nonzero
(unless the magnitude is below 1000) and returns the magnitude integer-divided
by that scale, with no rounding; in particular 999, 1000, 1500000 and
2000000000 map to (999, blank), (1, K), (1, M) and (2, G). -/
theorem denomination_spec (n : Nat) :
    ((denomination n).2 = ' ' ∨ (denomination n).2 = 'K' ∨
      (denomination n).2 = 'M' ∨ (denomination n).2 = 'G')
    ∧ (denomination n).1 = n / unitScale (denomination n).2
    ∧ (n < 1000 → denomination n = (n, ' '))
    ∧ (1000 ≤ n → 1 ≤ (denomination n).1 ∧ (denomination n).2 ≠ ' ' ∧
        ((denomination n).2 = 'G' ∨ n < 1000 * unitScale (denomination n).2))
    ∧ denomination 999 = (999, ' ') ∧ denomination 1000 = (1, 'K')
    ∧ denomination 1500000 = (1, 'M') ∧ denomination 2000000000 = (2, 'G') := by
  refine ⟨?_, ?_, ?_, ?_, by decide, by decide, by decide, by decide⟩ <;>
    unfold denomination
  · by_cases h9 : n ≥ 1000000000
    · rw [if_pos h9]
      exact Or.inr (Or.inr (Or.inr rfl))
    · rw [if_neg h9]
      by_cases h6 : n ≥ 1000000
      · rw [if_pos h6]
        exact Or.inr (Or.inr (Or.inl rfl))
      · rw [if_neg h6]
        by_cases h3 : n ≥ 1000
        · rw [if_pos h3]
          exact Or.inr (Or.inl rfl)
        · rw [if_neg h3]
          exact Or.inl rfl
  · by_cases h9 : n ≥ 1000000000
    · rw [if_pos h9]
      rfl
    · rw [if_neg h9]
      by_cases h6 : n ≥ 1000000
      · rw [if_pos h6]
        rfl
      · rw [if_neg h6]
        by_cases h3 : n ≥ 1000
        · rw [if_pos h3]
          rfl
        · rw [if_neg h3]
          show n = n / unitScale ' '
          rw [show unitScale ' ' = 1 from rfl, Nat.div_one]
  · intro hlt
    rw [if_neg (by omega), if_neg (by omega), if_neg (by omega)]
  · intro hge
    by_cases h9 : n ≥ 1000000000
    · rw [if_pos h9]
      refine ⟨(Nat.one_le_div_iff (by norm_num)).2 (by omega),
        (by decide : ('G' : Char) ≠ ' '), Or.inl rfl⟩
    · rw [if_neg h9]
      by_cases h6 : n ≥ 1000000
      · rw [if_pos h6]
        refine ⟨(Nat.one_le_div_iff (by norm_num)).2 (by omega),
          (by decide : ('M' : Char) ≠ ' '), Or.inr ?_⟩
        rw [show unitScale 'M' = 1000000 from rfl]
        omega
      · rw [if_neg h6]
        rw [if_pos (by omega : n ≥ 1000)]
        refine ⟨(Nat.one_le_div_iff (by norm_num)).2 (by omega),
          (by decide : ('K' : Char) ≠ ' '), Or.inr ?_⟩
        rw [show unitScale 'K' = 1000 from rfl]
        omega

/-- Witness for C9: at 1500000 the formatter picks the million unit, displays
a nonzero value, and a thousandfold larger unit would display zero. -/
theorem denomination_spec_witness :
    1 ≤ (denomination 1500000).1 ∧ (denomination 1500000).2 ≠ ' ' ∧
      ((denomination 1500000).2 = 'G' ∨
        1500000 < 1000 * unitScale (denomination 1500000).2) :=
  (denomination_spec 1500000).2.2.2.1 (by norm_num)

/-- C3: for a valid handle (with known geometry, a positive target, and the
row still on screen), `cancel` marks the row cancelled, resets `last_percent`
to 0 so the following redraw fires unconditionally, and then performs
`set_and_draw` to the target: the emitted row line carries the cancelled fill
(the distinct `_` fill character and `??? ` in place of a numeric
percentage).  The `Bar` handle itself is consumed by Rust move semantics. -/
theorem cancel_marks_and_draws (p : Progress) (i tw th : Nat) (b : SubBar)
    (hsz : p.size = some (tw, th)) (hb : p.bars[i]? = some b)
    (ht0 : b.total ≠ 0) (hmul : 100 * b.total < u64Size) (htw : 14 ≤ tw)
    (hpos : p.bars.length - i < th) :
    Progress.cancel p i = .ok
      ({ p with bars := p.bars.set i { b with cancelled := true, curr := b.total, prev_percent := 100 } },
       [Ev.saveAndUp (p.bars.length - i),
        Ev.labelData b.label (denomination b.total).1 (denomination b.total).2
          (tw - (tw / 2 - 7) - 8 - 5),
        Ev.cancelledFill (tw / 2 - 7), Ev.restore, Ev.flush]) := by
  have hi : i < p.bars.length := (List.getElem?_eq_some.1 hb).1
  have h7 : 7 ≤ tw / 2 := by omega
  have hl1 : tw / 2 - 7 ≤ tw := by omega
  have hl8 : 8 ≤ tw - (tw / 2 - 7) := by omega
  have hl5 : 5 ≤ tw - (tw / 2 - 7) - 8 := by omega
  have hdiv : 100 * b.total / b.total = 100 :=
    Nat.mul_div_cancel 100 (Nat.pos_of_ne_zero ht0)
  have hcnd : (p.bars.length - i < th ∧ 1 ≤ (100 : Nat)) ∨ (false = true) :=
    Or.inl ⟨hpos, by norm_num⟩
  unfold Progress.cancel Progress.set_and_draw Progress.set Progress.draw
  unfold Progress.drawImpl fillEvent
  simp only [hb, List.getElem?_set_eq_of_lt _ hi, List.set_set, List.length_set,
    hsz, checkedSub_ok_of (Nat.le_of_lt hi), checkedMul_ok_of hmul,
    checkedDiv_ok_of ht0, hdiv, checkedSub_ok_of (Nat.zero_le 100),
    Nat.sub_zero, if_pos hcnd, checkedSub_ok_of h7, checkedSub_ok_of hl1,
    checkedSub_ok_of hl8, checkedSub_ok_of hl5, if_pos rfl]
  rfl

/-- Witness for C3 on the concrete coordinator `pW1`: cancelling its single
row fills the row to its target of 50, marks it cancelled, and repaints it
with the cancelled fill and no numeric percentage. -/
theorem cancel_marks_and_draws_witness :
    Progress.cancel pW1 0 = .ok
      ({ bars := [{ prev_percent := 100, curr := 50, total := 50,
                    label := "x", cancelled := true }],
         size := some (80, 24) },
       [Ev.saveAndUp 1, Ev.labelData "x" 50 ' ' 34, Ev.cancelledFill 33,
        Ev.restore, Ev.flush]) :=
  cancel_marks_and_draws pW1 0 80 24
    { prev_percent := 0, curr := 30, total := 50, label := "x",
      cancelled := false }
    rfl rfl (by decide) (by decide) (by omega) (by decide)

/-- Is an event the bracketed fill field of a row line (any of the three
cases)? -/
def isFill : Ev → Bool
  | Ev.cancelledFill _ => true
  | Ev.completeFill _ => true
  | Ev.activeFill _ _ _ => true
  | _ => false

/-- A successful forced `draw_impl` with known geometry always repaints: it
writes exactly the row line, linearly framed by a trailing newline, with no
cursor save or restore. -/
theorem drawImpl_forced_chunk {p : Progress} {i tw th : Nat} {p' : Progress}
    {evs : List Ev} (hsz : p.size = some (tw, th))
    (h : Progress.drawImpl p i true = .ok (p', evs)) :
    ∃ b fe, p.bars[i]? = some b ∧
      evs = [Ev.labelData b.label (denomination b.curr).1 (denomination b.curr).2
               (tw - (tw / 2 - 7) - 8 - 5), fe, Ev.newline] ∧
      isFill fe = true ∧
      p' = { p with bars := p.bars.set i { b with prev_percent := 100 * b.curr / b.total } } := by
  rcases drawImpl_cases h with ⟨-, -, hforce, -⟩ |
    ⟨tw2, th2, b, fe, hsz2, hb, -, -, -, -, rfl, hevs, hfe⟩
  · rw [hforce rfl] at hsz
    cases hsz
  · rw [hsz] at hsz2
    obtain ⟨rfl, rfl⟩ := Prod.mk.inj (Option.some.inj hsz2)
    subst hevs
    refine ⟨b, fe, hb, by simp, ?_, rfl⟩
    rcases fillEvent_ok hfe with ⟨-, rfl⟩ | ⟨-, -, rfl⟩ | ⟨-, -, -, -, rfl⟩ <;> rfl

/-- Structure of a successful forced redraw sweep (the loop of the
`WriteHandle` drop): the emitted events split into one three-event linear
chunk per index, in order, each rendering the row that was at that index
before the sweep. -/
theorem drawAll_forced_struct (idxs : List Nat) (p : Progress) (tw th : Nat)
    (hsz : p.size = some (tw, th)) (p' : Progress) (evs : List Ev)
    (h : drawAll p idxs = .ok (p', evs)) :
    ∃ rows : List (List Ev), rows.length = idxs.length ∧ evs = rows.join ∧
      ∀ (j ix : Nat), idxs[j]? = some ix →
        ∃ (b : SubBar) (fe : Ev) (l : Nat), p.bars[ix]? = some b ∧
          rows[j]? = some [Ev.labelData b.label (denomination b.curr).1
            (denomination b.curr).2 l, fe, Ev.newline] ∧
          isFill fe = true := by
  induction idxs generalizing p evs with
  | nil =>
    unfold drawAll at h
    obtain ⟨rfl, rfl⟩ := Prod.mk.inj (Except.ok.inj h)
    exact ⟨[], rfl, rfl, fun j ix hj => by simp at hj⟩
  | cons i rest ih =>
    unfold drawAll at h
    split at h
    · simp at h
    · rename_i p1 evs1 heq1
      split at h
      · simp at h
      · rename_i p2 evs2 heq2
        obtain ⟨rfl, rfl⟩ := Prod.mk.inj (Except.ok.inj h)
        obtain ⟨b, fe, hb, hevs1, hfill, -⟩ := drawImpl_forced_chunk hsz heq1
        have hshape := drawImpl_shape heq1
        have hsz1 : p1.size = some (tw, th) := by rw [hshape.1, hsz]
        obtain ⟨rows, hlen, hjoin, hrows⟩ := ih p1 hsz1 evs2 heq2
        refine ⟨evs1 :: rows, by simp [hlen], by simp [hjoin], ?_⟩
        intro j ix hj
        cases j with
        | zero =>
          simp only [List.getElem?_cons_zero] at hj
          obtain rfl := Option.some.inj hj
          exact ⟨b, fe, tw - (tw / 2 - 7) - 8 - 5, hb, by simp [hevs1], hfill⟩
        | succ k =>
          simp only [List.getElem?_cons_succ] at hj
          obtain ⟨b', fe', l', hb', hrow, hfill'⟩ := hrows k ix hj
          have hix1 : ix < p1.bars.length := (List.getElem?_eq_some.1 hb').1
          have hix : ix < p.bars.length := by
            rw [← hshape.2.1]
            exact hix1
          obtain ⟨bk, hbk⟩ : ∃ bk, p.bars[ix]? = some bk :=
            ⟨p.bars[ix], List.getElem?_eq_getElem hix⟩
          obtain ⟨bk', hbk', hcurr, -, hlab, -⟩ := hshape.2.2 ix bk hbk
          rw [hb'] at hbk'
          obtain rfl := Option.some.inj hbk'
          refine ⟨bk, fe', l', hbk, ?_, hfill'⟩
          rw [List.getElem?_cons_succ, hrow, hlab, hcurr]

theorem range'_getElem? {s n j : Nat} (h : j < n) :
    (List.range' s n)[j]? = some (s + j) := by
  rw [List.getElem?_eq_getElem (by simpa using h)]
  simp [List.getElem_range']

/-- C2: releasing the scoped log-writer repaints exactly the rows whose
offset from the bottom fits inside the terminal height (all rows with index
at least `row_count - (height - 1)` when `row_count ≥ height`, otherwise all
rows), in index order from topmost to bottommost, each rendered linearly as a
three-event chunk ending in a line break (no cursor save/restore), and then
flushes the sink exactly once, as the single flush event terminating the
batch; opening and immediately closing a log scope with zero rows performs
the line-clear but iterates over no rows. -/
theorem drop_repaints_visible (p : Progress) (tw th : Nat)
    (hsz : p.size = some (tw, th)) (hth : 1 ≤ th) (p' : Progress)
    (evs : List Ev) (hd : writeHandleDrop p = .ok (p', evs)) :
    (∃ rows : List (List Ev),
      rows.length = p.bars.length -
        (if th ≤ p.bars.length then p.bars.length - (th - 1) else 0) ∧
      evs = rows.join ++ [Ev.flush] ∧
      ∀ (j : Nat) (r : List Ev), rows[j]? = some r →
        ∃ (b : SubBar) (fe : Ev) (l : Nat),
          p.bars[(if th ≤ p.bars.length then
            p.bars.length - (th - 1) else 0) + j]? = some b ∧
          r = [Ev.labelData b.label (denomination b.curr).1
                 (denomination b.curr).2 l, fe, Ev.newline] ∧
          isFill fe = true)
    ∧ (p.bars = [] →
        logScopeOpenClose p = .ok (p, [Ev.moveUpErase 0, Ev.flush])) := by
  constructor
  · unfold writeHandleDrop at hd
    rw [hsz] at hd
    simp only [ge_iff_le] at hd
    by_cases hc : th ≤ p.bars.length
    · simp only [if_pos hc, checkedSub_ok_of hth,
        checkedSub_ok_of (show th - 1 ≤ p.bars.length by omega)] at hd
      split at hd
      · simp at hd
      · rename_i pd evsd heqd
        obtain ⟨rfl, rfl⟩ := Prod.mk.inj (Except.ok.inj hd)
        obtain ⟨rows, hlen, hjoin, hrows⟩ :=
          drawAll_forced_struct _ p tw th hsz _ _ heqd
        rw [List.length_range'] at hlen
        refine ⟨rows, by rw [if_pos hc, hlen], by rw [hjoin], ?_⟩
        intro j r hr
        have hj : j < rows.length := (List.getElem?_eq_some.1 hr).1
        have hjlt : j < p.bars.length - (p.bars.length - (th - 1)) := by omega
        obtain ⟨b, fe, l, hb, hrow, hfill⟩ :=
          hrows j (p.bars.length - (th - 1) + j) (range'_getElem? hjlt)
        rw [hr] at hrow
        obtain rfl := Option.some.inj hrow
        exact ⟨b, fe, l, by rw [if_pos hc]; exact hb, rfl, hfill⟩
    · simp only [if_neg hc, Nat.sub_zero] at hd
      split at hd
      · simp at hd
      · rename_i pd evsd heqd
        obtain ⟨rfl, rfl⟩ := Prod.mk.inj (Except.ok.inj hd)
        obtain ⟨rows, hlen, hjoin, hrows⟩ :=
          drawAll_forced_struct _ p tw th hsz _ _ heqd
        rw [List.length_range'] at hlen
        refine ⟨rows, by rw [if_neg hc]; omega, by rw [hjoin], ?_⟩
        intro j r hr
        have hj : j < rows.length := (List.getElem?_eq_some.1 hr).1
        have hjlt : j < p.bars.length := by omega
        obtain ⟨b, fe, l, hb, hrow, hfill⟩ :=
          hrows j (0 + j) (range'_getElem? hjlt)
        rw [hr] at hrow
        obtain rfl := Option.some.inj hrow
        exact ⟨b, fe, l, by rw [if_neg hc]; exact hb, rfl, hfill⟩
  · intro hnil
    have hnl : ¬ ((0 : Nat) ≥ th) := by omega
    unfold logScopeOpenClose writeHandleDrop Progress.stderrOpen drawAll
    rw [hsz, hnil]
    simp [hnl]

/-- Witness for C2: opening and immediately closing a log scope on a
zero-row coordinator attached to a terminal emits exactly the line-clear
followed by the single batch flush, iterating over no rows. -/
theorem drop_repaints_visible_witness :
    logScopeOpenClose { bars := [], size := some (80, 24) } =
      .ok ({ bars := [], size := some (80, 24) },
           [Ev.moveUpErase 0, Ev.flush]) :=
  (drop_repaints_visible { bars := [], size := some (80, 24) } 80 24 rfl
    (by omega) { bars := [], size := some (80, 24) } [Ev.flush] rfl).2 rfl

/-- The state invariants every operation must preserve (C10): the row count
never decreases, a row's cancelled flag is never reset, and every numeric
percentage printed is below 100 (the display clamp). -/
def StepInv (p p' : Progress) (evs : List Ev) : Prop :=
  p.bars.length ≤ p'.bars.length
  ∧ (∀ (j : Nat) (bj bj' : SubBar), p.bars[j]? = some bj →
      p'.bars[j]? = some bj' → bj.cancelled = true → bj'.cancelled = true)
  ∧ (∀ (f e pct : Nat), Ev.activeFill f e pct ∈ evs → pct < 100)

theorem StepInv_trans {p p1 p2 : Progress} {ev1 ev2 : List Ev}
    (h1 : StepInv p p1 ev1) (h2 : StepInv p1 p2 ev2) : StepInv p p2 (ev1 ++ ev2) := by
  obtain ⟨l1, c1, a1⟩ := h1
  obtain ⟨l2, c2, a2⟩ := h2
  refine ⟨le_trans l1 l2, ?_, ?_⟩
  · intro j bj bj2 hbj hbj2 hc
    have hj : j < p1.bars.length :=
      lt_of_lt_of_le (List.getElem?_eq_some.1 hbj).1 l1
    obtain ⟨bm, hbm⟩ : ∃ bm, p1.bars[j]? = some bm :=
      ⟨p1.bars[j], List.getElem?_eq_getElem hj⟩
    exact c2 j bm bj2 hbm hbj2 (c1 j bj bm hbj hbm hc)
  · intro f e pct hm
    rcases List.mem_append.1 hm with hm | hm
    · exact a1 f e pct hm
    · exact a2 f e pct hm

theorem StepInv_refl_of {p : Progress} {evs : List Ev}
    (ha : ∀ (f e pct : Nat), Ev.activeFill f e pct ∈ evs → False) :
    StepInv p p evs := by
  refine ⟨le_refl _, ?_, fun f e pct hm => absurd hm (ha f e pct)⟩
  intro j bj bj' hbj hbj' hc
  rw [hbj] at hbj'
  obtain rfl := Option.some.inj hbj'
  exact hc

/-- Replacing one existing row by a row whose cancelled flag is at least as
set preserves the invariants. -/
theorem StepInv_setRow (bNew : SubBar) {p : Progress} {i : Nat} {b : SubBar}
    (hb : p.bars[i]? = some b)
    (hc : b.cancelled = true → bNew.cancelled = true) :
    StepInv p { p with bars := p.bars.set i bNew } [] := by
  have hi : i < p.bars.length := (List.getElem?_eq_some.1 hb).1
  refine ⟨by simp, ?_, by simp⟩
  intro j bj bj' hbj hbj' hcj
  by_cases hij : i = j
  · subst hij
    rw [hb] at hbj
    obtain rfl := Option.some.inj hbj
    rw [show ({ p with bars := p.bars.set i bNew } : Progress).bars[i]? =
        (p.bars.set i bNew)[i]? from rfl, List.getElem?_set_eq_of_lt _ hi]
      at hbj'
    obtain rfl := Option.some.inj hbj'
    exact hc hcj
  · rw [show ({ p with bars := p.bars.set i bNew } : Progress).bars[j]? =
        (p.bars.set i bNew)[j]? from rfl, List.getElem?_set_ne hij] at hbj'
    rw [hbj] at hbj'
    obtain rfl := Option.some.inj hbj'
    exact hcj

theorem StepInv_drawImpl {p : Progress} {i : Nat} {force : Bool} {p' : Progress}
    {evs : List Ev} (h : Progress.drawImpl p i force = .ok (p', evs)) :
    StepInv p p' evs := by
  have hs := drawImpl_shape h
  refine ⟨le_of_eq hs.2.1.symm, ?_, drawImpl_pct h⟩
  intro j bj bj' hbj hbj' hc
  obtain ⟨bm, hbm, -, -, -, hcanc⟩ := hs.2.2 j bj hbj
  rw [hbj'] at hbm
  obtain rfl := Option.some.inj hbm
  rw [hcanc]
  exact hc

theorem StepInv_draw {p : Progress} {i : Nat} {p' : Progress} {evs : List Ev}
    (h : Progress.draw p i = .ok (p', evs)) : StepInv p p' evs := by
  unfold Progress.draw at h
  split at h
  · simp at h
  · rename_i p0 evs0 heq
    obtain ⟨rfl, rfl⟩ := Prod.mk.inj (Except.ok.inj h)
    exact StepInv_trans (StepInv_drawImpl heq) (StepInv_refl_of (by simp))

theorem set_ok {p : Progress} {i v : Nat} {p' : Progress}
    (h : Progress.set p i v = .ok p') :
    ∃ b, p.bars[i]? = some b ∧
      p' = { p with bars := p.bars.set i { b with curr := v } } := by
  unfold Progress.set at h
  split at h
  · simp at h
  · rename_i b hb
    exact ⟨b, hb, (Except.ok.inj h).symm⟩

theorem inc_ok {p : Progress} {i v : Nat} {p' : Progress}
    (h : Progress.inc p i v = .ok p') :
    ∃ b, p.bars[i]? = some b ∧
      p' = { p with bars := p.bars.set i { b with curr := b.curr + v } } := by
  unfold Progress.inc at h
  split at h
  · simp at h
  · rename_i b hb
    split at h
    · simp at h
    · rename_i s hs
      obtain ⟨-, rfl⟩ := checkedAdd_ok hs
      obtain ⟨b2, hb2, rfl⟩ := set_ok h
      rw [hb] at hb2
      obtain rfl := Option.some.inj hb2
      exact ⟨b, hb, rfl⟩

theorem bar_ok {p : Progress} {t : Nat} {lbl : String} {p' : Progress}
    {idx : Nat} {evs : List Ev}
    (h : Progress.bar p t lbl = .ok (p', idx, evs)) :
    p' = { p with bars := p.bars ++ [newRow t lbl] } ∧
    ∃ l w, evs = [Ev.initLine lbl l w, Ev.flush] := by
  unfold Progress.bar at h
  dsimp only at h
  split at h
  · simp at h
  · rename_i w hw
    split at h
    · simp at h
    · rename_i l1 hl1
      split at h
      · simp at h
      · rename_i l2 hl2
        split at h
        · simp at h
        · rename_i l hl
          obtain ⟨h1, h2⟩ := Prod.mk.inj (Except.ok.inj h)
          obtain ⟨-, h3⟩ := Prod.mk.inj h2
          exact ⟨h1.symm, l, w, h3.symm⟩

theorem StepInv_drawAll {idxs : List Nat} {p p' : Progress} {evs : List Ev}
    (h : drawAll p idxs = .ok (p', evs)) : StepInv p p' evs := by
  induction idxs generalizing p evs with
  | nil =>
    unfold drawAll at h
    obtain ⟨rfl, rfl⟩ := Prod.mk.inj (Except.ok.inj h)
    exact StepInv_refl_of (by simp)
  | cons i rest ih =>
    unfold drawAll at h
    split at h
    · simp at h
    · rename_i p1 evs1 heq1
      split at h
      · simp at h
      · rename_i p2 evs2 heq2
        obtain ⟨rfl, rfl⟩ := Prod.mk.inj (Except.ok.inj h)
        exact StepInv_trans (StepInv_drawImpl heq1) (ih heq2)

theorem draw_noLabel {p : Progress} {i : Nat} {p' : Progress} {evs : List Ev}
    (h : Progress.draw p i = .ok (p', evs))
    (hnl : ∀ (lab : String) (d : Nat) (u : Char) (l : Nat),
      Ev.labelData lab d u l ∉ evs) :
    p' = p := by
  unfold Progress.draw at h
  split at h
  · simp at h
  · rename_i p0 evs0 heq
    obtain ⟨rfl, rfl⟩ := Prod.mk.inj (Except.ok.inj h)
    exact (drawImpl_noLabel heq
      (fun lab d u l hm => hnl lab d u l (List.mem_append_left _ hm))).1

theorem drawAll_noLabel {idxs : List Nat} {p p' : Progress} {evs : List Ev}
    (h : drawAll p idxs = .ok (p', evs))
    (hnl : ∀ (lab : String) (d : Nat) (u : Char) (l : Nat),
      Ev.labelData lab d u l ∉ evs) :
    p' = p := by
  induction idxs generalizing p evs with
  | nil =>
    unfold drawAll at h
    obtain ⟨rfl, rfl⟩ := Prod.mk.inj (Except.ok.inj h)
    rfl
  | cons i rest ih =>
    unfold drawAll at h
    split at h
    · simp at h
    · rename_i p1 evs1 heq1
      split at h
      · simp at h
      · rename_i p2 evs2 heq2
        obtain ⟨rfl, rfl⟩ := Prod.mk.inj (Except.ok.inj h)
        obtain ⟨rfl, -⟩ := drawImpl_noLabel heq1
          (fun lab d u l hm => hnl lab d u l (List.mem_append_left _ hm))
        exact ih heq2
          (fun lab d u l hm => hnl lab d u l (List.mem_append_right _ hm))

theorem drop_ok {p p' : Progress} {evs : List Ev}
    (h : writeHandleDrop p = .ok (p', evs)) :
    ∃ (idxs : List Nat) (evsd : List Ev),
      drawAll p idxs = .ok (p', evsd) ∧ evs = evsd ++ [Ev.flush] := by
  unfold writeHandleDrop at h
  dsimp only at h
  split at h
  · simp at h
  · split at h
    · simp at h
    · rename_i pd evsd heqd
      obtain ⟨rfl, rfl⟩ := Prod.mk.inj (Except.ok.inj h)
      exact ⟨_, evsd, heqd, rfl⟩

theorem logScope_ok {p p' : Progress} {evs : List Ev}
    (h : logScopeOpenClose p = .ok (p', evs)) :
    ∃ evsd, writeHandleDrop p = .ok (p', evsd) ∧
      evs = [Ev.moveUpErase p.bars.length] ++ evsd := by
  unfold logScopeOpenClose Progress.stderrOpen at h
  split at h
  · simp at h
  · rename_i p0 evs0 heq
    obtain ⟨rfl, rfl⟩ := Prod.mk.inj (Except.ok.inj h)
    exact ⟨evs0, heq, rfl⟩

theorem prevPreserved_setRow (bNew : SubBar) {p : Progress} {i : Nat}
    {b : SubBar} (hb : p.bars[i]? = some b)
    (hp : bNew.prev_percent = b.prev_percent) :
    ∀ (j : Nat) (bj : SubBar), p.bars[j]? = some bj →
      ∃ bj', ({ p with bars := p.bars.set i bNew } : Progress).bars[j]? =
          some bj' ∧ bj'.prev_percent = bj.prev_percent := by
  intro j bj hbj
  by_cases hij : i = j
  · subst hij
    rw [hb] at hbj
    obtain rfl := Option.some.inj hbj
    exact ⟨bNew,
      List.getElem?_set_eq_of_lt _ (List.getElem?_eq_some.1 hb).1, hp⟩
  · refine ⟨bj, ?_, rfl⟩
    rw [show ({ p with bars := p.bars.set i bNew } : Progress).bars[j]? =
      (p.bars.set i bNew)[j]? from rfl, List.getElem?_set_ne hij]
    exact hbj

/-- The coordinator operations of the public API (bar creation, mutation,
drawing, completion query, cancellation, log scope), for stating properties
uniformly over every operation. -/
inductive Op where
  | mkBar (total : Nat) (label : String)
  | set (i v : Nat)
  | inc (i v : Nat)
  | draw (i : Nat)
  | setAndDraw (i v : Nat)
  | incAndDraw (i v : Nat)
  | isDone (i : Nat)
  | cancel (i : Nat)
  | logScope
deriving DecidableEq, Repr

/-- One coordinator operation as a state-and-output transition, dispatching
to the embedded operations. -/
def step (p : Progress) : Op → Except Fault (Progress × List Ev)
  | Op.mkBar t lbl =>
    match Progress.bar p t lbl with
    | .error e => .error e
    | .ok (p', _, evs) => .ok (p', evs)
  | Op.set i v =>
    match Progress.set p i v with
    | .error e => .error e
    | .ok p' => .ok (p', [])
  | Op.inc i v =>
    match Progress.inc p i v with
    | .error e => .error e
    | .ok p' => .ok (p', [])
  | Op.draw i => Progress.draw p i
  | Op.setAndDraw i v => Progress.set_and_draw p i v
  | Op.incAndDraw i v => Progress.inc_and_draw p i v
  | Op.isDone i =>
    match Progress.is_done p i with
    | .error e => .error e
    | .ok _ => .ok (p, [])
  | Op.cancel i => Progress.cancel p i
  | Op.logScope => logScopeOpenClose p

/-- C10: every coordinator operation preserves the state invariants: the row
count never decreases; a cancelled flag once true is never reset; every
numeric percentage actually rendered is below 100 (completed rows print the
literal `100%` instead) while `set` stores any value, even one exceeding the
target, unclamped; and `last_percent` changes only inside an actual repaint
(a write of a row line) or through `cancel`'s explicit reset. -/
theorem step_invariants (p : Progress) (op : Op) (p' : Progress)
    (evs : List Ev) (h : step p op = .ok (p', evs)) :
    p.bars.length ≤ p'.bars.length
    ∧ (∀ (j : Nat) (bj bj' : SubBar), p.bars[j]? = some bj →
        p'.bars[j]? = some bj' → bj.cancelled = true → bj'.cancelled = true)
    ∧ (∀ (f e pct : Nat), Ev.activeFill f e pct ∈ evs → pct < 100)
    ∧ (∀ (i v : Nat), op = Op.set i v → ∀ bi : SubBar, p.bars[i]? = some bi →
        (p'.bars[i]?).map SubBar.curr = some v)
    ∧ ((∀ i, op ≠ Op.cancel i) →
        (∀ (lab : String) (d : Nat) (u : Char) (l : Nat),
          Ev.labelData lab d u l ∉ evs) →
        ∀ (j : Nat) (bj : SubBar), p.bars[j]? = some bj →
          ∃ bj', p'.bars[j]? = some bj' ∧
            bj'.prev_percent = bj.prev_percent) := by
  have key : StepInv p p' evs
      ∧ (∀ (i v : Nat), op = Op.set i v → ∀ bi : SubBar,
          p.bars[i]? = some bi → (p'.bars[i]?).map SubBar.curr = some v)
      ∧ ((∀ i, op ≠ Op.cancel i) →
          (∀ (lab : String) (d : Nat) (u : Char) (l : Nat),
            Ev.labelData lab d u l ∉ evs) →
          ∀ (j : Nat) (bj : SubBar), p.bars[j]? = some bj →
            ∃ bj', p'.bars[j]? = some bj' ∧
              bj'.prev_percent = bj.prev_percent) := by
    cases op with
    | mkBar t lbl =>
      simp only [step] at h
      split at h
      · simp at h
      · rename_i p0 idx0 evs0 heq
        obtain ⟨rfl, rfl⟩ := Prod.mk.inj (Except.ok.inj h)
        obtain ⟨rfl, l, w, rfl⟩ := bar_ok heq
        refine ⟨⟨by simp, ?_, by simp⟩, fun i v hop => Op.noConfusion hop, ?_⟩
        · intro j bj bj' hbj hbj' hc
          have hj : j < p.bars.length := (List.getElem?_eq_some.1 hbj).1
          rw [show ({ p with bars := p.bars ++ [newRow t lbl] } :
            Progress).bars[j]? = (p.bars ++ [newRow t lbl])[j]? from rfl,
            List.getElem?_append_left hj, hbj] at hbj'
          obtain rfl := Option.some.inj hbj'
          exact hc
        · intro _ _ j bj hbj
          have hj : j < p.bars.length := (List.getElem?_eq_some.1 hbj).1
          refine ⟨bj, ?_, rfl⟩
          rw [show ({ p with bars := p.bars ++ [newRow t lbl] } :
            Progress).bars[j]? = (p.bars ++ [newRow t lbl])[j]? from rfl,
            List.getElem?_append_left hj]
          exact hbj
    | set i0 v0 =>
      simp only [step] at h
      split at h
      · simp at h
      · rename_i p0 heq
        obtain ⟨rfl, rfl⟩ := Prod.mk.inj (Except.ok.inj h)
        obtain ⟨b, hb, rfl⟩ := set_ok heq
        have hi : i0 < p.bars.length := (List.getElem?_eq_some.1 hb).1
        refine ⟨StepInv_setRow { b with curr := v0 } hb (fun hx => hx),
          ?_, ?_⟩
        · intro i v hop bi hbi
          injection hop with h1 h2
          subst h1
          subst h2
          rw [show ({ p with bars := p.bars.set i0 { b with curr := v0 } } :
            Progress).bars[i0]? = (p.bars.set i0 { b with curr := v0 })[i0]?
            from rfl, List.getElem?_set_eq_of_lt _ hi]
          rfl
        · intro _ _
          exact prevPreserved_setRow { b with curr := v0 } hb rfl
    | inc i0 v0 =>
      simp only [step] at h
      split at h
      · simp at h
      · rename_i p0 heq
        obtain ⟨rfl, rfl⟩ := Prod.mk.inj (Except.ok.inj h)
        obtain ⟨b, hb, rfl⟩ := inc_ok heq
        refine ⟨StepInv_setRow { b with curr := b.curr + v0 } hb
          (fun hx => hx), fun i v hop => Op.noConfusion hop, ?_⟩
        intro _ _
        exact prevPreserved_setRow { b with curr := b.curr + v0 } hb rfl
    | draw i0 =>
      simp only [step] at h
      refine ⟨StepInv_draw h, fun i v hop => Op.noConfusion hop, ?_⟩
      intro _ hnl j bj hbj
      obtain rfl := draw_noLabel h hnl
      exact ⟨bj, hbj, rfl⟩
    | setAndDraw i0 v0 =>
      simp only [step] at h
      unfold Progress.set_and_draw at h
      split at h
      · simp at h
      · rename_i p1 heqs
        obtain ⟨b, hb, rfl⟩ := set_ok heqs
        refine ⟨?_, fun i v hop => Op.noConfusion hop, ?_⟩
        · have hcomp := StepInv_trans
            (StepInv_setRow { b with curr := v0 } hb (fun hx => hx))
            (StepInv_draw h)
          simpa using hcomp
        · intro _ hnl j bj hbj
          obtain rfl := draw_noLabel h hnl
          exact prevPreserved_setRow { b with curr := v0 } hb rfl j bj hbj
    | incAndDraw i0 v0 =>
      simp only [step] at h
      unfold Progress.inc_and_draw at h
      split at h
      · simp at h
      · rename_i p1 heqs
        obtain ⟨b, hb, rfl⟩ := inc_ok heqs
        refine ⟨?_, fun i v hop => Op.noConfusion hop, ?_⟩
        · have hcomp := StepInv_trans
            (StepInv_setRow { b with curr := b.curr + v0 } hb (fun hx => hx))
            (StepInv_draw h)
          simpa using hcomp
        · intro _ hnl j bj hbj
          obtain rfl := draw_noLabel h hnl
          exact prevPreserved_setRow { b with curr := b.curr + v0 } hb rfl
            j bj hbj
    | isDone i0 =>
      simp only [step] at h
      split at h
      · simp at h
      · obtain ⟨rfl, rfl⟩ := Prod.mk.inj (Except.ok.inj h)
        refine ⟨StepInv_refl_of (by simp),
          fun i v hop => Op.noConfusion hop, ?_⟩
        intro _ _ j bj hbj
        exact ⟨bj, hbj, rfl⟩
    | cancel i0 =>
      simp only [step] at h
      unfold Progress.cancel at h
      split at h
      · simp at h
      · rename_i b hb
        dsimp only at h
        split at h
        · simp at h
        · rename_i b1 hb1
          unfold Progress.set_and_draw at h
          split at h
          · simp at h
          · rename_i p2 heqs
            obtain ⟨b2, hb2, rfl⟩ := set_ok heqs
            refine ⟨?_, fun i v hop => Op.noConfusion hop,
              fun hne _ => absurd rfl (hne i0)⟩
            have i1 := StepInv_setRow
              { b with cancelled := true, prev_percent := 0 } hb
              (fun _ => rfl)
            have i2 := StepInv_trans i1
              (StepInv_setRow { b2 with curr := b1.total } hb2 (fun hx => hx))
            have i3 := StepInv_trans i2 (StepInv_draw h)
            simpa using i3
    | logScope =>
      simp only [step] at h
      obtain ⟨evsd, hdrop, rfl⟩ := logScope_ok h
      obtain ⟨idxs, evsd2, hda, rfl⟩ := drop_ok hdrop
      refine ⟨?_, fun i v hop => Op.noConfusion hop, ?_⟩
      · have i1 : StepInv p p [Ev.moveUpErase p.bars.length] :=
          StepInv_refl_of (by simp)
        have i15 : StepInv p' p' [Ev.flush] := StepInv_refl_of (by simp)
        have i2 := StepInv_trans i1
          (StepInv_trans (StepInv_drawAll hda) i15)
        simpa using i2
      · intro _ hnl j bj hbj
        have hnl2 : ∀ (lab : String) (d : Nat) (u : Char) (l : Nat),
            Ev.labelData lab d u l ∉ evsd2 := by
          intro lab d u l hm
          exact hnl lab d u l (by simp [hm])
        obtain rfl := drawAll_noLabel hda hnl2
        exact ⟨bj, hbj, rfl⟩
  exact ⟨key.1.1, key.1.2.1, key.1.2.2, key.2.1, key.2.2⟩

/-- Witness for C10: setting `pW1`'s row to 60, beyond its target of 50,
succeeds and stores the value unclamped (the display, not the state, clamps
at 100%). -/
theorem step_invariants_witness :
    (({ bars := [{ prev_percent := 0, curr := 60, total := 50, label := "x",
                   cancelled := false }],
        size := some (80, 24) } : Progress).bars[0]?).map SubBar.curr =
      some 60 :=
  (step_invariants pW1 (Op.set 0 60)
    { bars := [{ prev_percent := 0, curr := 60, total := 50, label := "x",
                 cancelled := false }],
      size := some (80, 24) } [] rfl).2.2.2.1 0 60 rfl
    { prev_percent := 0, curr := 30, total := 50, label := "x",
      cancelled := false } rfl
